import Mathlib

/-!
Shallow embedding of the audio-monitor repository (files `andre.py`, `app.py`,
`audio.py`, `config.py`, `dsp.py`) and proofs about the claims of its
specification.

Modelling conventions:
* Python floats that can only be finite or `-inf` on the relevant code path
  (dB values) are modelled as `WithBot ℚ`, with `⊥` standing for `-inf`.
* Python floats that can only be finite or `NaN` on the relevant code path
  (pitch/cents values) are modelled as `Option ℚ` / `Option ℝ`, with `none`
  standing for `NaN`.
* Exact rational / real arithmetic stands for IEEE float arithmetic; the
  transcendental results of `log10`, `log2` and `sqrt` live in `ℝ`.
* Wall-clock times are modelled as rationals.
-/

namespace Tuner

/-- Embeds `config.py` line 16 / `andre.py` line 82: `PITCH_FMIN = 65.0`. -/
def PITCH_FMIN : ℚ := 65

/-- Embeds `config.py` line 17 / `andre.py` line 83: `PITCH_FMAX = 1000.0`. -/
def PITCH_FMAX : ℚ := 1000

/-- Embeds `config.py` line 18 / `andre.py` line 84: `PITCH_MIN_CORR = 0.2`. -/
def PITCH_MIN_CORR : ℚ := 0.2

/-- Embeds `config.py` line 21 / `andre.py` line 87: `TUNER_EMA_ALPHA = 0.15`. -/
def TUNER_EMA_ALPHA : ℚ := 0.15

/-- Embeds `config.py` line 23 / `andre.py` line 90: `PEAK_HOLD_SECONDS = 1.5`. -/
def PEAK_HOLD_SECONDS : ℚ := 1.5

/-- Embeds `config.py` lines 26-33 / `andre.py` lines 94-97: the static
reference table `GUITAR_STRINGS` of (name, frequency) pairs. -/
def GUITAR_STRINGS : List (String × ℚ) :=
  [("E2", 82.41), ("A2", 110.00), ("D3", 146.83),
   ("G3", 196.00), ("B3", 246.94), ("E4", 329.63)]

/-! ### Stream buffer (claim C2)

`andre.py` lines 181 and 186-193: the capture callback stores blocks in a
`queue.Queue(maxsize=32)` via `put_nowait`, and `except queue.Full: pass`
silently discards the incoming block when the queue is full.  Blocks are
modelled as an arbitrary type `α`; the queue front is the list head. -/

/-- Embeds the capacity of `queue.Queue(maxsize=32)` (`andre.py` line 181). -/
def QUEUE_MAXSIZE : ℕ := 32

/-- Embeds `queue.Queue.put_nowait` as used in `AudioStream._callback`
(`andre.py` lines 186-193): if the queue holds fewer than `cap` items the
block is appended at the back, otherwise `queue.Full` is raised and caught by
`except queue.Full: pass`, leaving the queue unchanged. -/
def put_nowait {α : Type} (cap : ℕ) (q : List α) (x : α) : List α :=
  if q.length < cap then q ++ [x] else q

/-- Folds `put_nowait` over a sequence of incoming blocks, the way repeated
invocations of `AudioStream._callback` (`andre.py` lines 186-193) feed the
queue. -/
def pushAll {α : Type} (cap : ℕ) (q : List α) (xs : List α) : List α :=
  xs.foldl (put_nowait cap) q

/-! ### Peak-hold tracker (claim C1)

`andre.py` lines 306-309 inside `App._audio_worker`:
```
now = time.time()
if (db > self.state.peak_db_value) or ((now - self.state.peak_timestamp) > PEAK_HOLD_SECONDS):
    self.state.peak_db_value = db
    self.state.peak_timestamp = now
```
-/

/-- Peak-hold state: the fields `peak_db_value` / `peak_timestamp` of
`AudioState` (`andre.py` lines 170-171). -/
structure PeakState where
  peak_db_value : WithBot ℚ
  peak_timestamp : ℚ
deriving DecidableEq

/-- Embeds the peak-hold update of `App._audio_worker` (`andre.py` lines
306-309), executed for a loudness sample `db` observed at wall-clock time
`now`. -/
def peakStep (s : PeakState) (now : ℚ) (db : WithBot ℚ) : PeakState :=
  if s.peak_db_value < db ∨ PEAK_HOLD_SECONDS < now - s.peak_timestamp then
    ⟨db, now⟩
  else s

/-- Runs the peak-hold update over a list of timestamped loudness samples, in
arrival order. -/
def peakRun (s : PeakState) (samples : List (ℚ × WithBot ℚ)) : PeakState :=
  samples.foldl (fun st p => peakStep st p.1 p.2) s

/-! ### Recording append (claim C7)

Refactored implementation, `app.py` lines 97-104 (`App.process_audio_db`):
```
if self.recording:
    elapsed = current_time - self.record_start_time
    if np.isfinite(db_calibrated):
        self.record_samples.append((elapsed, db_calibrated))
```
Original implementation, `andre.py` lines 312-314 (`App._audio_worker`):
```
if self.recording:
    rel = now - self.record_start_time
    self.record_samples.append((rel, float(db)))
```
On this code path a dB value is either finite or `-inf` (so `np.isfinite`
amounts to `db ≠ ⊥`). -/

/-- Embeds the recording append of `App.process_audio_db` (`app.py` lines
97-104): while recording, a sample is appended only when its dB value is
finite. -/
def appAppend (recording : Bool) (samples : List (ℚ × WithBot ℚ))
    (elapsed : ℚ) (db : WithBot ℚ) : List (ℚ × WithBot ℚ) :=
  if recording then
    if db = ⊥ then samples else samples ++ [(elapsed, db)]
  else samples

/-- Embeds the recording append of `App._audio_worker` (`andre.py` lines
312-314): while recording, every sample is appended, with no finiteness
check. -/
def andreAppend (recording : Bool) (samples : List (ℚ × WithBot ℚ))
    (rel : ℚ) (db : WithBot ℚ) : List (ℚ × WithBot ℚ) :=
  if recording then samples ++ [(rel, db)] else samples

/-! ### Tuner smoother (claim C9)

Original implementation, `andre.py` lines 334-336 (`App._audio_worker`), run
on every pitch-analysis tick:
```
target = self.state.pitch_cents if np.isfinite(self.state.pitch_cents) else 0.0
self.smoothed_cents = (1.0 - TUNER_EMA_ALPHA) * self.smoothed_cents + TUNER_EMA_ALPHA * target
```
Refactored implementation, `app.py` lines 124-137 (`App.process_audio_tuner`):
the update `self.smoothed_cents += TUNER_EMA_ALPHA * (cents - self.smoothed_cents)`
runs only in the branch where a finite pitch was estimated and matched; on
ticks without a finite cents deviation `smoothed_cents` is left untouched.
The current cents deviation is modelled as `Option ℚ` (`none` = `NaN`). -/

/-- Embeds the smoothing step of `App._audio_worker` (`andre.py` lines
334-336). -/
def andreTunerStep (cents : Option ℚ) (smoothed : ℚ) : ℚ :=
  (1 - TUNER_EMA_ALPHA) * smoothed + TUNER_EMA_ALPHA * (cents.getD 0)

/-- Embeds the smoothing behaviour of one tick of `App.process_audio_tuner`
(`app.py` lines 124-137), restricted to its effect on `smoothed_cents`. -/
def appTunerStep (cents : Option ℚ) (smoothed : ℚ) : ℚ :=
  match cents with
  | some c => smoothed + TUNER_EMA_ALPHA * (c - smoothed)
  | none => smoothed

/-! ### Loudness estimation (claim C4)

`dsp.py` lines 6-12 = `andre.py` lines 102-108:
```
def rms_dbfs(x):
    if x is None or x.size == 0:
        return -np.inf
    rms = np.sqrt(np.mean(np.square(x), dtype=np.float64))
    if rms <= 1e-12:
        return -np.inf
    return 20.0 * np.log10(rms)
```
The input array is modelled as `List ℚ` (so the `x is None` guard has no
counterpart); the result is `WithBot ℝ` with `⊥` for `-inf`. -/

/-- Embeds `np.mean(np.square(x), dtype=np.float64)` from `dsp.py` line 9:
the float64-accumulated mean of the squared samples (exact rational
arithmetic stands for float64 accumulation). -/
def npMeanSq (x : List ℚ) : ℚ :=
  ((x.map fun a => a * a).sum : ℚ) / x.length

/-- Embeds `rms = np.sqrt(...)` from `dsp.py` line 9. -/
noncomputable def rmsOf (x : List ℚ) : ℝ :=
  Real.sqrt (npMeanSq x)

/-- Embeds `rms_dbfs` (`dsp.py` lines 6-12, identically `andre.py` lines
102-108). -/
noncomputable def rms_dbfs (x : List ℚ) : WithBot ℝ :=
  if x.length = 0 then ⊥
  else if rmsOf x ≤ 1e-12 then ⊥
  else ((20 * Real.logb 10 (rmsOf x) : ℝ) : WithBot ℝ)

/-! ### Pitch estimation (claim C3)

`dsp.py` lines 15-53 = `andre.py` lines 110-148, `estimate_pitch_autocorr`.
The Hann window `np.hanning` is transcendental (`0.5 - 0.5*cos(2*pi*n/(M-1))`),
so it enters the embedding as an explicit parameter `hann : ℕ → ℕ → ℚ`
(`hann M i` = i-th coefficient of the length-`M` window); every theorem below
quantifies over all such windows, of which the true one is an instance.
`NaN` results are modelled as `none`. -/

/-- Embeds `np.mean(y)` (`dsp.py` line 20). -/
def npMean (x : List ℚ) : ℚ :=
  x.sum / x.length

/-- Embeds `np.correlate(y, y, mode='full')[size // 2:]` (`dsp.py` lines
25-26): the non-negative-lag half of the full autocorrelation,
`corr[k] = Σ_i w[i] * w[i+k]` for `k = 0 .. n-1`. -/
def autocorrHalf (w : List ℚ) : List ℚ :=
  (List.range w.length).map fun k => ((w.zip (w.drop k)).map fun p => p.1 * p.2).sum

/-- Helper for `npArgmax`: scans the remaining list (whose head sits at index
`i`), keeping the index `bi` and value `bv` of the best element so far and
updating only on a strictly larger value, as `np.argmax` does (first index of
the maximum). -/
def npArgmaxAux : List ℚ → ℕ → ℕ → ℚ → ℕ
  | [], _, bi, _ => bi
  | v :: rest, i, bi, bv =>
    if bv < v then npArgmaxAux rest (i + 1) i v else npArgmaxAux rest (i + 1) bi bv

/-- Embeds `np.argmax` (`dsp.py` line 37): the first index attaining the
maximum (0 for the empty array, which `numpy` rejects; all uses here are
guarded non-empty). -/
def npArgmax : List ℚ → ℕ
  | [] => 0
  | v :: rest => npArgmaxAux rest 1 0 v

/-- Helper for `npArgmin`, dual to `npArgmaxAux`. -/
def npArgminAux : List ℚ → ℕ → ℕ → ℚ → ℕ
  | [], _, bi, _ => bi
  | v :: rest, i, bi, bv =>
    if v < bv then npArgminAux rest (i + 1) i v else npArgminAux rest (i + 1) bi bv

/-- Embeds `np.argmin` (`app.py` line 165): the first index attaining the
minimum. -/
def npArgmin : List ℚ → ℕ
  | [] => 0
  | v :: rest => npArgminAux rest 1 0 v

/-- Embeds Python `int()` applied to a float: truncation toward zero. -/
def pyInt (q : ℚ) : ℤ :=
  if 0 ≤ q then ⌊q⌋ else ⌈q⌉

/-- Embeds the second half of `estimate_pitch_autocorr` (`dsp.py` lines
31-53): lag-range restriction, peak search, minimum-correlation threshold,
parabolic refinement and frequency conversion, operating on the normalized
autocorrelation `corrN`.  In the rational model a computed `f0 = sr / lag`
with `lag > 0` is always finite, so `np.isfinite(f0)` holds on that branch;
`lag ≤ 0` yields `NaN` exactly as in the source. -/
def pitchFromCorr (sr : ℤ) (corrN : List ℚ) : Option ℚ :=
  let min_lag : ℤ := max 1 (pyInt ((sr : ℚ) / PITCH_FMAX))
  let max_lag : ℤ := min ((corrN.length : ℤ) - 1) (pyInt ((sr : ℚ) / PITCH_FMIN))
  if max_lag ≤ min_lag + 2 then none
  else
    let seg := (corrN.drop min_lag.toNat).take (max_lag.toNat - min_lag.toNat)
    let peak_idx : ℕ := npArgmax seg + min_lag.toNat
    if corrN.getD peak_idx 0 < PITCH_MIN_CORR then none
    else
      let peak_q : ℚ :=
        if 1 < peak_idx ∧ (peak_idx : ℤ) < (corrN.length : ℤ) - 2 then
          let y0 := corrN.getD (peak_idx - 1) 0
          let y1 := corrN.getD peak_idx 0
          let y2 := corrN.getD (peak_idx + 1) 0
          let denom := 2 * (y0 - 2 * y1 + y2)
          if 1e-12 < |denom| then (peak_idx : ℚ) + (y0 - y2) / denom
          else (peak_idx : ℚ)
        else (peak_idx : ℚ)
      if 0 < peak_q then
        let f0 := (sr : ℚ) / peak_q
        if f0 < PITCH_FMIN ∨ PITCH_FMAX < f0 then none else some f0
      else none

/-- Embeds `estimate_pitch_autocorr` (`dsp.py` lines 15-53, identically
`andre.py` lines 110-148): length guard, mean removal, all-zero guard, Hann
windowing, autocorrelation and normalization, then `pitchFromCorr` for the
remaining statements.  `hann` is the Hann-window parameter described above;
`sr` is the integer sample rate. -/
def estimate_pitch_autocorr (hann : ℕ → ℕ → ℚ) (y : List ℚ) (sr : ℤ) : Option ℚ :=
  if y.length < 32 then none
  else
    let yc := y.map fun v => v - npMean y
    if ∀ v ∈ yc, |v| ≤ 1e-8 then none
    else
      let w := yc.enum.map fun p => p.2 * hann y.length p.1
      let corr := autocorrHalf w
      if corr.getD 0 0 ≤ 1e-12 then none
      else pitchFromCorr sr (corr.map fun c => c / corr.getD 0 0)

/-! ### Nearest-note matching (claims C5, C10)

`dsp.py` lines 56-67 = `andre.py` lines 150-160:
```
def nearest_guitar_string(freq):
    if not np.isfinite(freq):
        return None
    best = None
    best_abs = 1e9
    for name, fref in GUITAR_STRINGS:
        cents = 1200.0 * math.log2(freq / fref)
        if abs(cents) < best_abs:
            best = (name, fref, cents)
            best_abs = abs(cents)
    return best
```
The input is `Option ℚ` (`none` = any non-finite float).  `math.log2` raises
`ValueError` on a non-positive argument, which propagates out of the loop;
the result type is therefore `Except Unit (Option (String × ℚ × ℝ))`, with
`.error ()` standing for the raised `ValueError`. -/

/-- Embeds `1200.0 * math.log2(freq / fref)` (`dsp.py` line 63):
`Except.error ()` models the `ValueError` raised by `math.log2` on a
non-positive argument. -/
noncomputable def centsOf (freq fref : ℚ) : Except Unit ℝ :=
  if 0 < freq / fref then Except.ok (1200 * Real.logb 2 ((freq / fref : ℚ) : ℝ))
  else Except.error ()

/-- Embeds the `for name, fref in GUITAR_STRINGS` loop of
`nearest_guitar_string` (`dsp.py` lines 62-66), carrying `best` and
`best_abs`. -/
noncomputable def nearestLoop (freq : ℚ) :
    List (String × ℚ) → Option (String × ℚ × ℝ) → ℝ →
      Except Unit (Option (String × ℚ × ℝ))
  | [], best, _ => Except.ok best
  | (name, fref) :: rest, best, bestAbs =>
    match centsOf freq fref with
    | Except.error e => Except.error e
    | Except.ok cents =>
      if |cents| < bestAbs then nearestLoop freq rest (some (name, fref, cents)) |cents|
      else nearestLoop freq rest best bestAbs

/-- Embeds `nearest_guitar_string` (`dsp.py` lines 56-67, identically
`andre.py` lines 150-160). -/
noncomputable def nearest_guitar_string (freq : Option ℚ) :
    Except Unit (Option (String × ℚ × ℝ)) :=
  match freq with
  | none => Except.ok none
  | some f => nearestLoop f GUITAR_STRINGS none 1e9

/-! ### Recording reports (claims C6, C8)

`app.py` lines 155-180 (`App.generate_report`) and `andre.py` lines 352-382
(`App._finalize_recording`).  Samples are `(elapsed, db)` pairs; on the
non-empty path all stored values are modelled as finite rationals, on which
the `nan`-variants of the numpy reductions used by `andre.py` coincide with
the plain ones.  The wall-clock `timestamp` string is not modelled. -/

/-- Embeds `np.max` / `np.nanmax` on a non-empty rational list (0 for the
empty list, which the sources guard against). -/
def npMax : List ℚ → ℚ
  | [] => 0
  | v :: rest => rest.foldl max v

/-- Embeds `np.min` / `np.nanmin` on a non-empty rational list. -/
def npMin : List ℚ → ℚ
  | [] => 0
  | v :: rest => rest.foldl min v

/-- Embeds `np.median` / `np.nanmedian`: sort, take the middle element (odd
length) or the average of the two middle elements (even length). -/
def npMedian (l : List ℚ) : ℚ :=
  let s := l.mergeSort fun a b => decide (a ≤ b)
  if l.length % 2 = 1 then s.getD (l.length / 2) 0
  else (s.getD (l.length / 2 - 1) 0 + s.getD (l.length / 2) 0) / 2

/-- Embeds the population variance underlying `np.std` / `np.nanstd`
(`ddof = 0`): the mean of the squared deviations from the mean. -/
def npVariance (l : List ℚ) : ℚ :=
  ((l.map fun v => (v - npMean l) ^ 2).sum : ℚ) / l.length

/-- Embeds `np.std` / `np.nanstd` (`ddof = 0`): the square root of the
population variance. -/
noncomputable def npStd (l : List ℚ) : ℝ :=
  Real.sqrt (npVariance l)

/-- Report record: union of the dictionary fields built by
`App._finalize_recording` (`andre.py` lines 352-382) and
`App.generate_report` (`app.py` lines 155-180); fields a variant does not
set are `none` (the wall-clock `timestamp` string is not modelled). -/
structure Report where
  samples : List (ℚ × ℚ)
  min_db : Option ℚ
  max_db : Option ℚ
  mean_db : Option ℚ
  median_db : Option ℚ
  std_db : Option ℝ
  peak_time : Option ℚ
  min_time : Option ℚ
  peak_value : Option ℚ
  min_value : Option ℚ
  duration : ℚ

/-- Embeds `App._finalize_recording` (`andre.py` lines 352-382): the empty
session yields a report of `None` statistics and zero duration; otherwise
the `nan`-reductions over the stored values (here: finite rationals). -/
noncomputable def finalize_recording (record_samples : List (ℚ × ℚ)) : Report :=
  if record_samples = [] then
    { samples := [], min_db := none, max_db := none, mean_db := none,
      median_db := none, std_db := none, peak_time := none, min_time := none,
      peak_value := none, min_value := none, duration := 0 }
  else
    let times := record_samples.map Prod.fst
    let vals := record_samples.map Prod.snd
    let max_idx := npArgmax vals
    let min_idx := npArgmin vals
    { samples := record_samples,
      min_db := some (npMin vals),
      max_db := some (npMax vals),
      mean_db := some (npMean vals),
      median_db := some (npMedian vals),
      std_db := some (npStd vals),
      peak_time := some (times.getD max_idx 0),
      min_time := some (times.getD min_idx 0),
      peak_value := some (vals.getD max_idx 0),
      min_value := some (vals.getD min_idx 0),
      duration := times.getLastD 0 }

/-- Embeds `App.generate_report` (`app.py` lines 155-180): `none` models the
empty dictionary returned for an empty sample list (`App.stop_recording`,
`app.py` lines 145-153, likewise publishes no report then). -/
noncomputable def generate_report (record_samples : List (ℚ × ℚ)) : Option Report :=
  if record_samples = [] then none
  else
    let times := record_samples.map Prod.fst
    let vals := record_samples.map Prod.snd
    let max_idx := npArgmax vals
    let min_idx := npArgmin vals
    some
    { samples := record_samples,
      min_db := some (vals.getD min_idx 0),
      max_db := some (vals.getD max_idx 0),
      mean_db := some (npMean vals),
      median_db := some (npMedian vals),
      std_db := some (npStd vals),
      peak_time := some (times.getD max_idx 0),
      min_time := some (times.getD min_idx 0),
      peak_value := none,
      min_value := none,
      duration := times.getLastD 0 }

/-! ## Theorems -/

/-! ### Claim C1: peak-hold update step -/

theorem peakRun_cons (s : PeakState) (p : ℚ × WithBot ℚ) (l : List (ℚ × WithBot ℚ)) :
    peakRun s (p :: l) = peakRun (peakStep s p.1 p.2) l := rfl

theorem peakStep_silent (s : PeakState) (t : ℚ) :
    peakStep s t ⊥ =
      if PEAK_HOLD_SECONDS < t - s.peak_timestamp then ⟨⊥, t⟩ else s := by
  have h : ¬ s.peak_db_value < (⊥ : WithBot ℚ) := not_lt_bot
  simp [peakStep, h]

theorem peakRun_silent_bot (ts : List ℚ) :
    ∀ s : PeakState, s.peak_db_value = ⊥ →
      (peakRun s (ts.map fun u => (u, (⊥ : WithBot ℚ)))).peak_db_value = ⊥ := by
  induction ts with
  | nil => intro s h; simpa [peakRun] using h
  | cons u rest ih =>
    intro s h
    rw [List.map_cons, peakRun_cons, peakStep_silent]
    by_cases hc : PEAK_HOLD_SECONDS < u - s.peak_timestamp
    · rw [if_pos hc]; exact ih _ rfl
    · rw [if_neg hc]; exact ih s h

theorem peakRun_silent_decay (ts : List ℚ) :
    ∀ s : PeakState, (∃ u ∈ ts, s.peak_timestamp + PEAK_HOLD_SECONDS < u) →
      (peakRun s (ts.map fun u => (u, (⊥ : WithBot ℚ)))).peak_db_value = ⊥ := by
  induction ts with
  | nil => rintro s ⟨u, hu, -⟩; cases hu
  | cons u rest ih =>
    rintro s ⟨w, hw, hlt⟩
    rw [List.map_cons, peakRun_cons, peakStep_silent]
    by_cases hc : PEAK_HOLD_SECONDS < u - s.peak_timestamp
    · rw [if_pos hc]; exact peakRun_silent_bot rest _ rfl
    · rw [if_neg hc]
      rcases List.mem_cons.mp hw with rfl | hw'
      · exact absurd (by linarith) hc
      · exact ih s ⟨w, hw', hlt⟩

/-- C1 (confirmed): the peak-hold update of `App._audio_worker` (`andre.py`
lines 306-309), on a sample of value `v` at time `t`, (a) adopts `v` and
resets the hold-start time when `v` exceeds the held peak, (b) otherwise
adopts `v` regardless of magnitude when more than `PEAK_HOLD_SECONDS = 1.5`
seconds have passed since the hold-start time, and (c) otherwise leaves the
state unchanged; consequently a tracker fed only `-inf` samples, at least one
of which arrives more than the hold duration after the hold-start time, ends
holding `-inf`. -/
theorem C1_peak_hold_step (s : PeakState) (t : ℚ) (v : WithBot ℚ) :
    PEAK_HOLD_SECONDS = 3 / 2 ∧
    (s.peak_db_value < v → peakStep s t v = ⟨v, t⟩) ∧
    (¬ s.peak_db_value < v → PEAK_HOLD_SECONDS < t - s.peak_timestamp →
      peakStep s t v = ⟨v, t⟩) ∧
    (¬ s.peak_db_value < v → ¬ PEAK_HOLD_SECONDS < t - s.peak_timestamp →
      peakStep s t v = s) ∧
    (∀ ts : List ℚ, (∃ u ∈ ts, s.peak_timestamp + PEAK_HOLD_SECONDS < u) →
      (peakRun s (ts.map fun u => (u, (⊥ : WithBot ℚ)))).peak_db_value = ⊥) := by
  refine ⟨by norm_num [PEAK_HOLD_SECONDS], ?_, ?_, ?_, fun ts h => peakRun_silent_decay ts s h⟩
  · intro h; simp [peakStep, h]
  · intro h1 h2; simp [peakStep, h1, h2]
  · intro h1 h2; simp [peakStep, h1, h2]

theorem C1_peak_hold_step_witness :
    peakStep ⟨((50 : ℚ) : WithBot ℚ), 0⟩ 1 ((60 : ℚ) : WithBot ℚ) =
      ⟨((60 : ℚ) : WithBot ℚ), 1⟩ ∧
    peakStep ⟨((50 : ℚ) : WithBot ℚ), 0⟩ 2 ((40 : ℚ) : WithBot ℚ) =
      ⟨((40 : ℚ) : WithBot ℚ), 2⟩ ∧
    peakStep ⟨((50 : ℚ) : WithBot ℚ), 0⟩ 1 ((40 : ℚ) : WithBot ℚ) =
      ⟨((50 : ℚ) : WithBot ℚ), 0⟩ ∧
    (peakRun ⟨((50 : ℚ) : WithBot ℚ), 0⟩ [((2 : ℚ), (⊥ : WithBot ℚ))]).peak_db_value = ⊥ := by
  refine ⟨?_, ?_, ?_, ?_⟩
  · refine (C1_peak_hold_step _ _ _).2.1 ?_
    show ((50 : ℚ) : WithBot ℚ) < ((60 : ℚ) : WithBot ℚ)
    rw [WithBot.coe_lt_coe]; norm_num
  · refine (C1_peak_hold_step _ _ _).2.2.1 ?_ (by norm_num [PEAK_HOLD_SECONDS])
    show ¬ ((50 : ℚ) : WithBot ℚ) < ((40 : ℚ) : WithBot ℚ)
    rw [WithBot.coe_lt_coe]; norm_num
  · refine (C1_peak_hold_step _ _ _).2.2.2.1 ?_ (by norm_num [PEAK_HOLD_SECONDS])
    show ¬ ((50 : ℚ) : WithBot ℚ) < ((40 : ℚ) : WithBot ℚ)
    rw [WithBot.coe_lt_coe]; norm_num
  · exact (C1_peak_hold_step ⟨((50 : ℚ) : WithBot ℚ), 0⟩ 0 ⊥).2.2.2.2 [2]
      ⟨2, by simp, by norm_num [PEAK_HOLD_SECONDS]⟩

/-! ### Claim C2: stream-buffer overflow policy -/

theorem pushAll_go {α : Type} (cap : ℕ) :
    ∀ (xs q : List α), q.length ≤ cap →
      pushAll cap q xs = q ++ xs.take (cap - q.length) := by
  intro xs
  induction xs with
  | nil => intro q h; simp [pushAll]
  | cons x rest ih =>
    intro q h
    have h2 : pushAll cap q (x :: rest) = pushAll cap (put_nowait cap q x) rest := rfl
    rcases eq_or_lt_of_le h with heq | hlt
    · have h1 : put_nowait cap q x = q := by
        simp [put_nowait, heq]
      rw [h2, h1, ih q h]
      have h0 : cap - q.length = 0 := by omega
      simp [h0]
    · have h1 : put_nowait cap q x = q ++ [x] := by
        simp [put_nowait, hlt]
      rw [h2, h1, ih (q ++ [x]) (by simpa using hlt)]
      have h3 : cap - q.length = (cap - (q.length + 1)) + 1 := by omega
      simp [h3, List.take_succ_cons]

/-- C2 (counterexample): pushing 33 blocks into the empty capacity-32 queue
of `AudioStream._callback` (`andre.py` lines 181, 186-193) retains the first
32 (oldest) blocks, not the 32 most recently pushed ones demanded by the
claim. -/
theorem C2_retains_oldest_cex :
    pushAll QUEUE_MAXSIZE ([] : List ℕ) (List.range 33) = List.range 32 ∧
    List.range 32 ≠ (List.range 33).drop 1 := by
  constructor
  · have h := pushAll_go QUEUE_MAXSIZE (List.range 33) [] (by simp)
    simpa [QUEUE_MAXSIZE, List.take_range, Nat.min_def] using h
  · decide

/-- C2 (amended): when a push would exceed capacity, the incoming block is
dropped and the queue is unchanged, so pushing any sequence of blocks into
the empty queue retains exactly the first `cap` (oldest) blocks pushed. -/
theorem C2_drop_newest {α : Type} (cap : ℕ) (xs : List α) :
    pushAll cap ([] : List α) xs = xs.take cap ∧
    ∀ (q : List α) (x : α), ¬ q.length < cap → put_nowait cap q x = q := by
  constructor
  · simpa using pushAll_go cap xs [] (by simp)
  · intro q x h; simp [put_nowait, h]

theorem C2_drop_newest_witness :
    pushAll 1 ([] : List ℕ) [5, 6] = [5] ∧ put_nowait 1 [5] 6 = [5] := by
  constructor
  · have h := (C2_drop_newest 1 [5, 6]).1
    simpa using h
  · exact (C2_drop_newest 1 [5, 6]).2 [5] 6 (by decide)

/-! ### Claim C7: recording append filter -/

/-- C7 (counterexample): while recording, `App._audio_worker` (`andre.py`
lines 312-314) appends a non-finite (here `-inf`) dB reading to the stored
sample sequence, contradicting the claim that a reading is stored only if
finite. -/
theorem C7_stores_nonfinite_cex :
    andreAppend true [] 0 ⊥ = [((0 : ℚ), (⊥ : WithBot ℚ))] ∧
    andreAppend true [] 0 ⊥ ≠ [] := by
  constructor <;> simp [andreAppend]

/-- C7 (amended): in `App.process_audio_db` (`app.py` lines 97-104) a
reading is stored iff it is finite, non-finite readings are skipped (not
stored as zero), and append is a no-op when no session is active; in
`App._audio_worker` (`andre.py` lines 312-314) every reading is stored while
recording, without the finiteness filter. -/
theorem C7_finite_filter (rec : Bool) (s : List (ℚ × WithBot ℚ)) (e : ℚ)
    (db : WithBot ℚ) :
    (rec = false → appAppend rec s e db = s ∧ andreAppend rec s e db = s) ∧
    (rec = true →
      (db ≠ ⊥ → appAppend rec s e db = s ++ [(e, db)]) ∧
      (db = ⊥ → appAppend rec s e db = s) ∧
      andreAppend rec s e db = s ++ [(e, db)]) := by
  constructor
  · rintro rfl; exact ⟨by simp [appAppend], by simp [andreAppend]⟩
  · rintro rfl
    refine ⟨fun h => ?_, fun h => ?_, by simp [andreAppend]⟩
    · simp [appAppend, h]
    · simp [appAppend, h]

theorem C7_finite_filter_witness :
    appAppend true [] 0 ((5 : ℚ) : WithBot ℚ) = [((0 : ℚ), ((5 : ℚ) : WithBot ℚ))] ∧
    appAppend true [] 0 ⊥ = [] :=
  ⟨((C7_finite_filter true [] 0 _).2 rfl).1 (by simp),
   ((C7_finite_filter true [] 0 ⊥).2 rfl).2.1 rfl⟩

/-! ### Claim C9: tuner smoother -/

/-- C9 (counterexample): on a tick with no finite cents deviation,
`App.process_audio_tuner` (`app.py` lines 124-137) leaves the smoothed value
unchanged (here `100`), whereas the claimed update toward target `0` would
yield `100 + 0.15 * (0 - 100) = 85`. -/
theorem C9_no_update_on_nan_cex :
    appTunerStep none 100 = 100 ∧
    (100 : ℚ) ≠ 100 + TUNER_EMA_ALPHA * (0 - 100) := by
  refine ⟨rfl, ?_⟩
  norm_num [TUNER_EMA_ALPHA]

/-- C9 (amended): `App._audio_worker` (`andre.py` lines 334-336) updates the
smoothed cents on every pitch tick by
`smoothed + TUNER_EMA_ALPHA * (target - smoothed)` with target the cents
deviation when finite and `0` otherwise; `App.process_audio_tuner` (`app.py`
lines 124-137) applies the same update only on ticks with a finite matched
cents deviation and leaves the smoothed value unchanged otherwise. -/
theorem C9_ema_update (cents : Option ℚ) (s c : ℚ) :
    TUNER_EMA_ALPHA = 0.15 ∧
    andreTunerStep cents s = s + TUNER_EMA_ALPHA * (cents.getD 0 - s) ∧
    appTunerStep (some c) s = s + TUNER_EMA_ALPHA * (c - s) ∧
    appTunerStep none s = s := by
  refine ⟨rfl, ?_, rfl, rfl⟩
  unfold andreTunerStep
  ring

/-! ### Claim C4: loudness estimation -/

theorem npMeanSq_nonneg (x : List ℚ) : 0 ≤ npMeanSq x := by
  unfold npMeanSq
  refine div_nonneg (List.sum_nonneg fun a ha => ?_) (by positivity)
  rcases List.mem_map.mp ha with ⟨b, -, rfl⟩
  exact mul_self_nonneg b

theorem rmsOf_le_iff (x : List ℚ) :
    rmsOf x ≤ 1e-12 ↔ npMeanSq x ≤ 1 / 10 ^ 24 := by
  unfold rmsOf
  rw [Real.sqrt_le_left (by norm_num)]
  rw [show ((1e-12 : ℝ)) ^ 2 = ((1 / 10 ^ 24 : ℚ) : ℝ) by norm_num]
  exact_mod_cast Iff.rfl

/-- C4 (confirmed): `rms_dbfs` (`dsp.py` lines 6-12) returns `-inf` exactly
when the input is empty or its RMS is at most `1e-12` (equivalently, its
float64-accumulated mean square is at most `1e-24`), and otherwise returns
`20 * log10(rms)`. -/
theorem C4_rms_dbfs (x : List ℚ) :
    (rms_dbfs x = ⊥ ↔ x = [] ∨ npMeanSq x ≤ 1 / 10 ^ 24) ∧
    (¬ (x = [] ∨ npMeanSq x ≤ 1 / 10 ^ 24) →
      rms_dbfs x = ((20 * Real.logb 10 (rmsOf x) : ℝ) : WithBot ℝ)) := by
  unfold rms_dbfs
  simp only [List.length_eq_zero]
  constructor
  · by_cases h1 : x = []
    · simp [h1]
    · rw [if_neg h1]
      by_cases h2 : rmsOf x ≤ 1e-12
      · simp only [if_pos h2, h1, false_or, true_iff]
        exact (rmsOf_le_iff x).mp h2
      · simp only [if_neg h2]
        constructor
        · intro hc; exact absurd hc (WithBot.coe_ne_bot)
        · rintro (hc | hc)
          · exact absurd hc h1
          · exact absurd ((rmsOf_le_iff x).mpr hc) h2
  · intro h
    push_neg at h
    rw [if_neg h.1, if_neg fun hc => absurd ((rmsOf_le_iff x).mp hc) (not_le.mpr h.2)]

theorem C4_rms_dbfs_witness :
    rms_dbfs [1] = ((20 * Real.logb 10 (rmsOf [1]) : ℝ) : WithBot ℝ) :=
  (C4_rms_dbfs [1]).2 (by
    rintro (h | h)
    · exact absurd h (by simp)
    · rw [show npMeanSq [1] = 1 by norm_num [npMeanSq]] at h
      norm_num at h)

/-! ### Claim C3: pitch-estimator postcondition -/

/-- C3 (confirmed): for every Hann-window table, input window and sample
rate, `estimate_pitch_autocorr` (`dsp.py` lines 15-53) returns `NaN`
(modelled `none`) or a finite frequency within
`[PITCH_FMIN, PITCH_FMAX] = [65, 1000]`; in particular every window shorter
than 32 samples yields `NaN`. -/
theorem C3_pitch_postcondition (hann : ℕ → ℕ → ℚ) (y : List ℚ) (sr : ℤ) :
    (estimate_pitch_autocorr hann y sr = none ∨
      ∃ f, estimate_pitch_autocorr hann y sr = some f ∧
        PITCH_FMIN ≤ f ∧ f ≤ PITCH_FMAX) ∧
    (y.length < 32 → estimate_pitch_autocorr hann y sr = none) := by
  have hcore : ∀ (corrN : List ℚ), pitchFromCorr sr corrN = none ∨
      ∃ f, pitchFromCorr sr corrN = some f ∧ PITCH_FMIN ≤ f ∧ f ≤ PITCH_FMAX := by
    intro corrN
    simp only [pitchFromCorr]
    split_ifs <;> first
      | exact Or.inl rfl
      | (rename_i hb; push_neg at hb; exact Or.inr ⟨_, rfl, hb.1, hb.2⟩)
  constructor
  · simp only [estimate_pitch_autocorr]
    split_ifs <;> first
      | exact Or.inl rfl
      | exact hcore _
  · intro h
    unfold estimate_pitch_autocorr
    rw [if_pos h]

theorem C3_pitch_postcondition_witness :
    estimate_pitch_autocorr (fun _ _ => 0) [] 12000 = none :=
  (C3_pitch_postcondition (fun _ _ => 0) [] 12000).2 (by norm_num)

/-! ### Claim C6: empty-session finalize -/

/-- C6 (confirmed): finalizing a session with zero stored samples yields, in
`App._finalize_recording` (`andre.py` lines 352-361), a report with duration
0 and every statistic absent, and in `App.generate_report` (`app.py` lines
155-157), no report dictionary at all — in both cases without any division
by zero (the guard short-circuits before any statistic is computed). -/
theorem C6_empty_finalize :
    finalize_recording [] =
      { samples := [], min_db := none, max_db := none, mean_db := none,
        median_db := none, std_db := none, peak_time := none, min_time := none,
        peak_value := none, min_value := none, duration := 0 } ∧
    generate_report [] = none := by
  constructor
  · unfold finalize_recording
    rw [if_pos rfl]
  · unfold generate_report
    rw [if_pos rfl]

/-! ### Claim C8: non-empty report statistics -/

theorem getD_of_lt {α : Type} (l : List α) (n : ℕ) (d : α) (h : n < l.length) :
    l.getD n d = l[n] := by
  simp [List.getD_eq_getElem?_getD, List.getElem?_eq_getElem h]

theorem le_foldl_max (l : List ℚ) : ∀ a : ℚ, a ≤ l.foldl max a := by
  induction l with
  | nil => intro a; simp
  | cons b rest ih => intro a; exact le_trans (le_max_left a b) (ih (max a b))

theorem mem_le_foldl_max (l : List ℚ) : ∀ (a x : ℚ), x ∈ l → x ≤ l.foldl max a := by
  induction l with
  | nil => intro a x hx; cases hx
  | cons b rest ih =>
    intro a x hx
    rcases List.mem_cons.mp hx with rfl | hx'
    · exact le_trans (le_max_right a x) (le_foldl_max rest (max a x))
    · exact ih (max a b) x hx'

theorem foldl_max_of_le (l : List ℚ) : ∀ a : ℚ, (∀ x ∈ l, x ≤ a) → l.foldl max a = a := by
  induction l with
  | nil => intro a _; rfl
  | cons b rest ih =>
    intro a h
    rw [List.foldl_cons, max_eq_left (h b (List.mem_cons_self b rest))]
    exact ih a fun x hx => h x (List.mem_cons_of_mem b hx)

theorem npArgmaxAux_spec (l : List ℚ) : ∀ (i bi : ℕ) (bv : ℚ),
    (npArgmaxAux l i bi bv = bi ∧ ∀ x ∈ l, x ≤ bv) ∨
    (∃ k, k < l.length ∧ npArgmaxAux l i bi bv = i + k ∧
      l.getD k 0 = l.foldl max bv ∧ bv < l.getD k 0) := by
  induction l with
  | nil => intro i bi bv; exact Or.inl ⟨rfl, by simp⟩
  | cons v rest ih =>
    intro i bi bv
    by_cases hv : bv < v
    · have hstep : npArgmaxAux (v :: rest) i bi bv = npArgmaxAux rest (i + 1) i v := by
        simp [npArgmaxAux, hv]
      rcases ih (i + 1) i v with ⟨heq, hall⟩ | ⟨k, hk, heq, hval, hlt⟩
      · refine Or.inr ⟨0, by simp, ?_, ?_, ?_⟩
        · rw [hstep, heq]; omega
        · simp [List.foldl_cons, max_eq_right hv.le, foldl_max_of_le rest v hall]
        · simpa using hv
      · refine Or.inr ⟨k + 1, by simpa using hk, ?_, ?_, ?_⟩
        · rw [hstep, heq]; omega
        · rw [List.getD_cons_succ, List.foldl_cons, max_eq_right hv.le]; exact hval
        · simpa using lt_trans hv hlt
    · have hstep : npArgmaxAux (v :: rest) i bi bv = npArgmaxAux rest (i + 1) bi bv := by
        simp [npArgmaxAux, hv]
      rcases ih (i + 1) bi bv with ⟨heq, hall⟩ | ⟨k, hk, heq, hval, hlt⟩
      · refine Or.inl ⟨by rw [hstep, heq], ?_⟩
        intro x hx
        rcases List.mem_cons.mp hx with rfl | hx'
        · exact not_lt.mp hv
        · exact hall x hx'
      · refine Or.inr ⟨k + 1, by simpa using hk, ?_, ?_, ?_⟩
        · rw [hstep, heq]; omega
        · rw [List.getD_cons_succ, List.foldl_cons, max_eq_left (not_lt.mp hv)]; exact hval
        · simpa using hlt

theorem npArgmax_spec (l : List ℚ) (h : l ≠ []) :
    npArgmax l < l.length ∧ ∀ x ∈ l, x ≤ l.getD (npArgmax l) 0 := by
  match l, h with
  | v :: rest, _ =>
    show npArgmaxAux rest 1 0 v < (v :: rest).length ∧
      ∀ x ∈ v :: rest, x ≤ (v :: rest).getD (npArgmaxAux rest 1 0 v) 0
    rcases npArgmaxAux_spec rest 1 0 v with ⟨heq, hall⟩ | ⟨k, hk, heq, hval, hlt⟩
    · rw [heq]
      refine ⟨by simp, ?_⟩
      intro x hx
      rcases List.mem_cons.mp hx with rfl | hx'
      · simp
      · simpa using hall x hx'
    · rw [heq, Nat.add_comm 1 k]
      constructor
      · simp; omega
      · intro x hx
        rw [List.getD_cons_succ, hval]
        rcases List.mem_cons.mp hx with rfl | hx'
        · exact le_foldl_max rest x
        · exact mem_le_foldl_max rest v x hx'

theorem le_foldl_min (l : List ℚ) : ∀ a : ℚ, l.foldl min a ≤ a := by
  induction l with
  | nil => intro a; simp
  | cons b rest ih => intro a; exact le_trans (ih (min a b)) (min_le_left a b)

theorem foldl_min_le_mem (l : List ℚ) : ∀ (a x : ℚ), x ∈ l → l.foldl min a ≤ x := by
  induction l with
  | nil => intro a x hx; cases hx
  | cons b rest ih =>
    intro a x hx
    rcases List.mem_cons.mp hx with rfl | hx'
    · exact le_trans (le_foldl_min rest (min a x)) (min_le_right a x)
    · exact ih (min a b) x hx'

theorem foldl_min_of_le (l : List ℚ) : ∀ a : ℚ, (∀ x ∈ l, a ≤ x) → l.foldl min a = a := by
  induction l with
  | nil => intro a _; rfl
  | cons b rest ih =>
    intro a h
    rw [List.foldl_cons, min_eq_left (h b (List.mem_cons_self b rest))]
    exact ih a fun x hx => h x (List.mem_cons_of_mem b hx)

theorem npArgminAux_spec (l : List ℚ) : ∀ (i bi : ℕ) (bv : ℚ),
    (npArgminAux l i bi bv = bi ∧ ∀ x ∈ l, bv ≤ x) ∨
    (∃ k, k < l.length ∧ npArgminAux l i bi bv = i + k ∧
      l.getD k 0 = l.foldl min bv ∧ l.getD k 0 < bv) := by
  induction l with
  | nil => intro i bi bv; exact Or.inl ⟨rfl, by simp⟩
  | cons v rest ih =>
    intro i bi bv
    by_cases hv : v < bv
    · have hstep : npArgminAux (v :: rest) i bi bv = npArgminAux rest (i + 1) i v := by
        simp [npArgminAux, hv]
      rcases ih (i + 1) i v with ⟨heq, hall⟩ | ⟨k, hk, heq, hval, hlt⟩
      · refine Or.inr ⟨0, by simp, ?_, ?_, ?_⟩
        · rw [hstep, heq]; omega
        · simp [List.foldl_cons, min_eq_right hv.le, foldl_min_of_le rest v hall]
        · simpa using hv
      · refine Or.inr ⟨k + 1, by simpa using hk, ?_, ?_, ?_⟩
        · rw [hstep, heq]; omega
        · rw [List.getD_cons_succ, List.foldl_cons, min_eq_right hv.le]; exact hval
        · simpa using lt_trans hlt hv
    · have hstep : npArgminAux (v :: rest) i bi bv = npArgminAux rest (i + 1) bi bv := by
        simp [npArgminAux, hv]
      rcases ih (i + 1) bi bv with ⟨heq, hall⟩ | ⟨k, hk, heq, hval, hlt⟩
      · refine Or.inl ⟨by rw [hstep, heq], ?_⟩
        intro x hx
        rcases List.mem_cons.mp hx with rfl | hx'
        · exact not_lt.mp hv
        · exact hall x hx'
      · refine Or.inr ⟨k + 1, by simpa using hk, ?_, ?_, ?_⟩
        · rw [hstep, heq]; omega
        · rw [List.getD_cons_succ, List.foldl_cons, min_eq_left (not_lt.mp hv)]; exact hval
        · simpa using hlt

theorem npArgmin_spec (l : List ℚ) (h : l ≠ []) :
    npArgmin l < l.length ∧ ∀ x ∈ l, l.getD (npArgmin l) 0 ≤ x := by
  match l, h with
  | v :: rest, _ =>
    show npArgminAux rest 1 0 v < (v :: rest).length ∧
      ∀ x ∈ v :: rest, (v :: rest).getD (npArgminAux rest 1 0 v) 0 ≤ x
    rcases npArgminAux_spec rest 1 0 v with ⟨heq, hall⟩ | ⟨k, hk, heq, hval, hlt⟩
    · rw [heq]
      refine ⟨by simp, ?_⟩
      intro x hx
      rcases List.mem_cons.mp hx with rfl | hx'
      · simp
      · simpa using hall x hx'
    · rw [heq, Nat.add_comm 1 k]
      constructor
      · simp; omega
      · intro x hx
        rw [List.getD_cons_succ, hval]
        rcases List.mem_cons.mp hx with rfl | hx'
        · exact le_foldl_min rest x
        · exact foldl_min_le_mem rest v x hx'

theorem npVariance_nonneg (l : List ℚ) : 0 ≤ npVariance l := by
  unfold npVariance
  refine div_nonneg (List.sum_nonneg fun a ha => ?_) (by positivity)
  rcases List.mem_map.mp ha with ⟨b, -, rfl⟩
  exact sq_nonneg _

theorem report_pair_mem (samples : List (ℚ × ℚ)) (i : ℕ) (hi : i < samples.length) :
    ((samples.map Prod.fst).getD i 0, (samples.map Prod.snd).getD i 0) ∈ samples := by
  rw [getD_of_lt _ i 0 (by simpa using hi), getD_of_lt _ i 0 (by simpa using hi)]
  simp only [List.getElem_map]
  exact List.getElem_mem hi

/-- C8 (confirmed): for a non-empty finalized session, the report built by
`App.generate_report` (`app.py` lines 155-180) carries the maximum and
minimum stored dB values together with elapsed-time positions at which they
were stored, the arithmetic mean, the median, a non-negative standard
deviation whose square is the population variance of the stored values, and
a duration equal to the elapsed time of the last stored sample. -/
theorem C8_report_stats (samples : List (ℚ × ℚ)) (h : samples ≠ []) :
    ∃ r, generate_report samples = some r ∧
      r.duration = (samples.getLast h).1 ∧
      (∃ M tM, r.max_db = some M ∧ r.peak_time = some tM ∧ (tM, M) ∈ samples ∧
        ∀ p ∈ samples, p.2 ≤ M) ∧
      (∃ m tm, r.min_db = some m ∧ r.min_time = some tm ∧ (tm, m) ∈ samples ∧
        ∀ p ∈ samples, m ≤ p.2) ∧
      r.mean_db = some ((samples.map Prod.snd).sum / (samples.map Prod.snd).length) ∧
      r.median_db = some (npMedian (samples.map Prod.snd)) ∧
      (∃ σ, r.std_db = some σ ∧ 0 ≤ σ ∧
        σ ^ 2 = ((((samples.map Prod.snd).map fun v =>
          (v - npMean (samples.map Prod.snd)) ^ 2).sum /
            ((samples.map Prod.snd).length : ℚ) : ℚ) : ℝ)) := by
  have hvne : samples.map Prod.snd ≠ [] := by
    simpa using h
  have hargmax := npArgmax_spec (samples.map Prod.snd) hvne
  have hargmin := npArgmin_spec (samples.map Prod.snd) hvne
  have hlenv : (samples.map Prod.snd).length = samples.length := List.length_map _ _
  refine ⟨_, by unfold generate_report; rw [if_neg h], ?_, ?_, ?_, rfl, rfl, ?_⟩
  · show (samples.map Prod.fst).getLastD 0 = (samples.getLast h).1
    rw [List.getLastD_eq_getLast?, List.getLast?_map,
      List.getLast?_eq_getLast_of_ne_nil h]
    rfl
  · refine ⟨_, _, rfl, rfl, ?_, ?_⟩
    · exact report_pair_mem samples (npArgmax (samples.map Prod.snd))
        (by rw [← hlenv]; exact hargmax.1)
    · intro p hp
      exact hargmax.2 p.2 (List.mem_map_of_mem Prod.snd hp)
  · refine ⟨_, _, rfl, rfl, ?_, ?_⟩
    · exact report_pair_mem samples (npArgmin (samples.map Prod.snd))
        (by rw [← hlenv]; exact hargmin.1)
    · intro p hp
      exact hargmin.2 p.2 (List.mem_map_of_mem Prod.snd hp)
  · refine ⟨npStd (samples.map Prod.snd), rfl, Real.sqrt_nonneg _, ?_⟩
    show Real.sqrt ((npVariance (samples.map Prod.snd) : ℚ) : ℝ) ^ 2 = _
    rw [Real.sq_sqrt (by exact_mod_cast npVariance_nonneg _)]
    rfl

theorem C8_report_stats_witness :
    ∃ r, generate_report [((1 : ℚ), (5 : ℚ))] = some r ∧
      r.duration = 1 ∧ r.max_db = some 5 ∧ r.min_db = some 5 := by
  obtain ⟨r, hrep, hdur, ⟨M, tM, hM, -, hmem, -⟩, ⟨m, tm, hm, -, hmem', -⟩, -⟩ :=
    C8_report_stats [((1 : ℚ), (5 : ℚ))] (by simp)
  refine ⟨r, hrep, by simpa using hdur, ?_, ?_⟩
  · rw [hM]
    rcases List.mem_singleton.mp hmem with hpair
    rw [show M = 5 from congrArg Prod.snd hpair]
  · rw [hm]
    rcases List.mem_singleton.mp hmem' with hpair
    rw [show m = 5 from congrArg Prod.snd hpair]

/-! ### Claims C5, C10: nearest-note matching -/

theorem centsOf_pos (f fref : ℚ) (hf : 0 < f) (hr : 0 < fref) :
    centsOf f fref = Except.ok (1200 * Real.logb 2 ((f / fref : ℚ) : ℝ)) := by
  unfold centsOf
  rw [if_pos (div_pos hf hr)]

theorem centsOf_nonpos (f fref : ℚ) (hf : f ≤ 0) (hr : 0 < fref) :
    centsOf f fref = Except.error () := by
  unfold centsOf
  rw [if_neg (not_lt.mpr (div_nonpos_iff.mpr (Or.inr ⟨hf, hr.le⟩)))]

theorem nearestLoop_spec (f : ℚ) :
    ∀ (l : List (String × ℚ)) (best : Option (String × ℚ × ℝ)) (A : ℝ),
      (∀ nm fr c, best = some (nm, fr, c) → A = |c|) →
      ∀ nm fr c, nearestLoop f l best A = Except.ok (some (nm, fr, c)) →
        (best = some (nm, fr, c) ∨
          ((nm, fr) ∈ l ∧ c = 1200 * Real.logb 2 ((f / fr : ℚ) : ℝ))) ∧
        |c| ≤ A ∧
        ∀ p ∈ l, |c| ≤ |1200 * Real.logb 2 ((f / p.2 : ℚ) : ℝ)| := by
  intro l
  induction l with
  | nil =>
    intro best A hA nm fr c hres
    have hbest : best = some (nm, fr, c) := by
      simpa [nearestLoop] using hres
    exact ⟨Or.inl hbest, le_of_eq (hA nm fr c hbest).symm, by simp⟩
  | cons e rest ih =>
    obtain ⟨name, fref⟩ := e
    intro best A hA nm fr c hres
    rcases hcents : centsOf f fref with u | cents
    · simp only [nearestLoop, hcents] at hres
      exact Except.noConfusion hres
    · simp only [nearestLoop, hcents] at hres
      have hcval : cents = 1200 * Real.logb 2 ((f / fref : ℚ) : ℝ) := by
        unfold centsOf at hcents
        by_cases hp : 0 < f / fref
        · rw [if_pos hp] at hcents
          exact (Except.ok.inj hcents).symm
        · rw [if_neg hp] at hcents; cases hcents
      by_cases hlt : |cents| < A
      · rw [if_pos hlt] at hres
        obtain ⟨hmem, hle, hall⟩ := ih (some (name, fref, cents)) |cents|
          (by
            intro nm' fr' c' h'
            have h'' := Option.some.inj h'
            injection h'' with e1 e23
            injection e23 with e2 e3
            rw [e3]) nm fr c hres
        refine ⟨?_, le_trans hle hlt.le, ?_⟩
        · rcases hmem with hbest | ⟨hin, hval⟩
          · have h'' := Option.some.inj hbest
            injection h'' with e1 e23
            injection e23 with e2 e3
            refine Or.inr ⟨?_, ?_⟩
            · rw [← e1, ← e2]; exact List.mem_cons_self _ _
            · rw [← e3, hcval, ← e2]
          · exact Or.inr ⟨List.mem_cons_of_mem _ hin, hval⟩
        · intro p hp
          rcases List.mem_cons.mp hp with rfl | hp'
          · exact le_trans hle (le_of_eq (congrArg (fun z => |z|) hcval))
          · exact hall p hp'
      · rw [if_neg hlt] at hres
        obtain ⟨hmem, hle, hall⟩ := ih best A hA nm fr c hres
        refine ⟨?_, hle, ?_⟩
        · rcases hmem with hbest | ⟨hin, hval⟩
          · exact Or.inl hbest
          · exact Or.inr ⟨List.mem_cons_of_mem _ hin, hval⟩
        · intro p hp
          rcases List.mem_cons.mp hp with rfl | hp'
          · exact le_trans hle (le_trans (not_lt.mp hlt)
              (le_of_eq (congrArg (fun z => |z|) hcval)))
          · exact hall p hp'

theorem nearestLoop_ok_some (f : ℚ) (hf : 0 < f) :
    ∀ (l : List (String × ℚ)), (∀ p ∈ l, 0 < p.2) →
      ∀ (b : String × ℚ × ℝ) (A : ℝ),
        ∃ t, nearestLoop f l (some b) A = Except.ok (some t) := by
  intro l
  induction l with
  | nil => intro _ b A; exact ⟨b, rfl⟩
  | cons e rest ih =>
    obtain ⟨name, fref⟩ := e
    intro hpos b A
    have h1 : 0 < fref := hpos (name, fref) (List.mem_cons_self _ _)
    have hrest : ∀ p ∈ rest, 0 < p.2 := fun p hp => hpos p (List.mem_cons_of_mem _ hp)
    simp only [nearestLoop, centsOf_pos f fref hf h1]
    by_cases hlt : |1200 * Real.logb 2 ((f / fref : ℚ) : ℝ)| < A
    · rw [if_pos hlt]; exact ih hrest _ _
    · rw [if_neg hlt]; exact ih hrest b A

theorem abs_cents_lt (f : ℚ) (h1 : 1 / 2 ^ 1074 ≤ f) (h2 : f ≤ 2 ^ 1024)
    (fref : ℚ) (hr1 : 1 ≤ fref) (hr2 : fref ≤ 2 ^ 7) :
    |1200 * Real.logb 2 ((f / fref : ℚ) : ℝ)| < 1e9 := by
  have hf : 0 < f := lt_of_lt_of_le (by positivity) h1
  have hfr : (0 : ℚ) < fref := lt_of_lt_of_le one_pos hr1
  have hx : (0 : ℝ) < ((f / fref : ℚ) : ℝ) := by
    exact_mod_cast div_pos hf hfr
  have hub : Real.logb 2 ((f / fref : ℚ) : ℝ) ≤ 1031 := by
    rw [Real.logb_le_iff_le_rpow (by norm_num) hx]
    have hq : (f / fref : ℚ) ≤ 2 ^ 1024 :=
      le_trans (div_le_self hf.le hr1) h2
    have hstep : ((f / fref : ℚ) : ℝ) ≤ (2 : ℝ) ^ (1024 : ℕ) := by
      exact_mod_cast hq
    refine le_trans hstep ?_
    rw [show ((1031 : ℝ)) = ((1031 : ℕ) : ℝ) by norm_num, Real.rpow_natCast]
    exact pow_le_pow_right₀ (by norm_num) (by norm_num)
  have hlb : (-1081 : ℝ) ≤ Real.logb 2 ((f / fref : ℚ) : ℝ) := by
    rw [Real.le_logb_iff_rpow_le (by norm_num) hx]
    have hq : (1 / 2 ^ 1081 : ℚ) ≤ f / fref := by
      rw [div_le_div_iff₀ (by positivity) hfr]
      calc (1 : ℚ) * fref = fref := one_mul fref
        _ ≤ 2 ^ 7 := hr2
        _ = (1 / 2 ^ 1074) * 2 ^ 1081 := by
            rw [div_mul_eq_mul_div, one_mul, eq_div_iff (pow_ne_zero _ (by norm_num)),
              ← pow_add]
        _ ≤ f * 2 ^ 1081 := by
            exact mul_le_mul_of_nonneg_right h1 (by positivity)
    have hstep : ((1 / 2 ^ 1081 : ℚ) : ℝ) ≤ ((f / fref : ℚ) : ℝ) := by
      exact_mod_cast hq
    refine le_trans (le_of_eq ?_) hstep
    rw [show ((-1081 : ℝ)) = -((1081 : ℕ) : ℝ) by norm_num,
      Real.rpow_neg (by norm_num), Real.rpow_natCast]
    push_cast
    rw [one_div]
  rw [abs_mul, show |(1200 : ℝ)| = 1200 by norm_num]
  have habs : |Real.logb 2 ((f / fref : ℚ) : ℝ)| ≤ 1081 :=
    abs_le.mpr ⟨by linarith, by linarith⟩
  calc (1200 : ℝ) * |Real.logb 2 ((f / fref : ℚ) : ℝ)|
      ≤ 1200 * 1081 := by
        exact mul_le_mul_of_nonneg_left habs (by norm_num)
    _ < 1e9 := by norm_num

/-- C5 (confirmed): `nearest_guitar_string` (`dsp.py` lines 56-67) returns no
match for a non-finite frequency; any returned triple consists of a table
entry together with its cents deviation `1200 * log2(freq / fref)`, minimal
in absolute value over the whole table; and matching exactly the reference
frequency 110.00 Hz returns ("A2", 110, 0 cents). -/
theorem C5_nearest_note :
    nearest_guitar_string none = Except.ok none ∧
    (∀ (f : ℚ) (nm : String) (fr : ℚ) (c : ℝ),
      nearest_guitar_string (some f) = Except.ok (some (nm, fr, c)) →
      (nm, fr) ∈ GUITAR_STRINGS ∧ c = 1200 * Real.logb 2 ((f / fr : ℚ) : ℝ) ∧
      ∀ p ∈ GUITAR_STRINGS, |c| ≤ |1200 * Real.logb 2 ((f / p.2 : ℚ) : ℝ)|) ∧
    nearest_guitar_string (some 110) = Except.ok (some ("A2", 110, 0)) := by
  refine ⟨rfl, ?_, ?_⟩
  · intro f nm fr c hres
    obtain ⟨hmem, -, hall⟩ := nearestLoop_spec f GUITAR_STRINGS none 1e9
      (by intro nm' fr' c' h'; cases h') nm fr c hres
    rcases hmem with hbest | ⟨hin, hval⟩
    · cases hbest
    · exact ⟨hin, hval, hall⟩
  · show nearestLoop 110 GUITAR_STRINGS none 1e9 = Except.ok (some ("A2", 110, 0))
    have hc2 : (1200 : ℝ) * Real.logb 2 ((110 / 110.00 : ℚ) : ℝ) = 0 := by
      rw [show ((110 / 110.00 : ℚ) : ℝ) = 1 by norm_num]
      simp [Real.logb_one]
    have hc1pos : 0 < (1200 : ℝ) * Real.logb 2 ((110 / 82.41 : ℚ) : ℝ) := by
      refine mul_pos (by norm_num) (Real.logb_pos (by norm_num) ?_)
      exact_mod_cast (by norm_num : (1 : ℚ) < 110 / 82.41)
    simp only [GUITAR_STRINGS, nearestLoop,
      centsOf_pos 110 (82.41 : ℚ) (by norm_num) (by norm_num),
      centsOf_pos 110 (110.00 : ℚ) (by norm_num) (by norm_num),
      centsOf_pos 110 (146.83 : ℚ) (by norm_num) (by norm_num),
      centsOf_pos 110 (196.00 : ℚ) (by norm_num) (by norm_num),
      centsOf_pos 110 (246.94 : ℚ) (by norm_num) (by norm_num),
      centsOf_pos 110 (329.63 : ℚ) (by norm_num) (by norm_num)]
    rw [if_pos (abs_cents_lt 110 (by norm_num) (by norm_num) (82.41 : ℚ)
      (by norm_num) (by norm_num))]
    rw [if_pos (by rw [hc2]; simpa using abs_pos.mpr (ne_of_gt hc1pos))]
    rw [if_neg (by rw [hc2]; simp)]
    rw [if_neg (by rw [hc2]; simp)]
    rw [if_neg (by rw [hc2]; simp)]
    rw [if_neg (by rw [hc2]; simp)]
    rw [hc2]
    norm_num

theorem C5_nearest_note_witness :
    nearest_guitar_string (some 110) = Except.ok (some ("A2", 110, 0)) ∧
    ("A2", (110 : ℚ)) ∈ GUITAR_STRINGS ∧
    (0 : ℝ) = 1200 * Real.logb 2 ((110 / 110 : ℚ) : ℝ) := by
  have h3 := C5_nearest_note.2.2
  have h2 := C5_nearest_note.2.1 110 "A2" 110 0 h3
  exact ⟨h3, h2.1, h2.2.1⟩

/-- C10 (confirmed): for every finite strictly positive frequency — i.e.
every rational in the range `[2^-1074, 2^1024]` of positive finite IEEE
doubles — `nearest_guitar_string` returns a `(name, fref, cents)` triple and
never the no-match result (the first table entry always beats the `1e9`
initial bound, since `|cents|` is at most `1200 * 1081` there); and strict
positivity is necessary: for a finite non-positive frequency `math.log2`
raises `ValueError` (modelled `Except.error`) instead of returning. -/
theorem C10_totality_on_pos (f : ℚ) :
    (1 / 2 ^ 1074 ≤ f → f ≤ 2 ^ 1024 →
      ∃ t, nearest_guitar_string (some f) = Except.ok (some t)) ∧
    (f ≤ 0 → nearest_guitar_string (some f) = Except.error ()) := by
  constructor
  · intro h1 h2
    have hf : 0 < f := lt_of_lt_of_le (by positivity) h1
    show ∃ t, nearestLoop f GUITAR_STRINGS none 1e9 = Except.ok (some t)
    simp only [GUITAR_STRINGS, nearestLoop,
      centsOf_pos f (82.41 : ℚ) hf (by norm_num)]
    rw [if_pos (abs_cents_lt f h1 h2 (82.41 : ℚ) (by norm_num) (by norm_num))]
    exact nearestLoop_ok_some f hf
      [("A2", 110.00), ("D3", 146.83), ("G3", 196.00), ("B3", 246.94), ("E4", 329.63)]
      (by intro p hp; fin_cases hp <;> norm_num) _ _
  · intro hf
    show nearestLoop f GUITAR_STRINGS none 1e9 = Except.error ()
    simp only [GUITAR_STRINGS, nearestLoop,
      centsOf_nonpos f (82.41 : ℚ) hf (by norm_num)]

theorem C10_totality_on_pos_witness :
    (∃ t, nearest_guitar_string (some 110) = Except.ok (some t)) ∧
    nearest_guitar_string (some (-1)) = Except.error () :=
  ⟨(C10_totality_on_pos 110).1
    (by
      calc (1 / 2 ^ 1074 : ℚ) ≤ 1 := by
            rw [div_le_one (by positivity)]
            exact one_le_pow₀ (by norm_num)
        _ ≤ 110 := by norm_num)
    (by
      calc (110 : ℚ) ≤ 2 ^ 7 := by norm_num
        _ ≤ 2 ^ 1024 := pow_le_pow_right₀ (by norm_num) (by norm_num)),
   (C10_totality_on_pos (-1)).2 (by norm_num)⟩

end Tuner
